import Mathlib

/-
Shallow embedding of the gtsam ActiveSetSolver excerpt (ActiveSetSolver.h):
the step-size computation, leaving-constraint identification, dual-Jacobian
collection and dual-graph assembly of the active-set method. Real numbers are
modelled as rationals; VectorValues used only through dot products are
modelled as total functions from keys, while VectorValues accessed through
the throwing lookup `at` are modelled as association lists with an Option
returning lookup.
-/

/-- A single-row linear inequality factor `a^T x <= b` with its activity flag
and dual key, as in gtsam LinearInequality. The sparse row `a` is a list of
(key, coefficient) pairs. -/
structure LinearInequality where
  row : List (Nat × ℚ)
  b : ℚ
  active : Bool
  dualKey : Nat
  deriving DecidableEq, Repr

/-- Dot product of the factor's single row with a vector of values,
mirroring LinearInequality::dotProductRow. -/
def dotProductRow (f : LinearInequality) (x : Nat → ℚ) : ℚ :=
  (f.row.map fun t => t.2 * x t.1).sum

/-- The loop body of ActiveSetSolver::computeStepSize: iterate over the
working set keeping the running minimum alpha and the index of the factor
that attained it (initially -1). Only inactive factors with a^T p > 0
produce a candidate alpha = (b - a^T xk) / (a^T p); a candidate replaces the
running minimum only when strictly smaller. -/
def stepLoop (xk p : Nat → ℚ) :
    List LinearInequality → Nat → ℚ → ℤ → ℚ × ℤ
  | [], _, minAlpha, closestFactorIx => (minAlpha, closestFactorIx)
  | factor :: rest, factorIx, minAlpha, closestFactorIx =>
    if factor.active = true then
      stepLoop xk p rest (factorIx + 1) minAlpha closestFactorIx
    else if dotProductRow factor p ≤ 0 then
      stepLoop xk p rest (factorIx + 1) minAlpha closestFactorIx
    else
      let alpha := (factor.b - dotProductRow factor xk) / dotProductRow factor p
      if alpha < minAlpha then
        stepLoop xk p rest (factorIx + 1) alpha (factorIx : ℤ)
      else
        stepLoop xk p rest (factorIx + 1) minAlpha closestFactorIx

/-- ActiveSetSolver::computeStepSize: returns (alpha, factorIndex) where
factorIndex is -1 when no inactive constraint restricts the step below
startAlpha. -/
def computeStepSize (workingSet : List LinearInequality) (xk p : Nat → ℚ)
    (startAlpha : ℚ) : ℚ × ℤ :=
  stepLoop xk p workingSet 0 startAlpha (-1)

/-- The candidate step bound contributed by one factor in computeStepSize:
present exactly when the factor is inactive and a^T p > 0, in which case it
is (b - a^T xk) / (a^T p). -/
def candAlpha (xk p : Nat → ℚ) (f : LinearInequality) : Option ℚ :=
  if f.active = false ∧ 0 < dotProductRow f p then
    some ((f.b - dotProductRow f xk) / dotProductRow f p)
  else none

/-- Association-list lookup, modelling map lookup by key (gtsam VectorValues
and VariableIndex find/at). -/
def assocFind {α : Type} (l : List (Nat × α)) (k : Nat) : Option α :=
  (l.find? fun t => t.1 == k).map fun t => t.2

/-- The read lambdas.at(factor.dualKey())[0] performed by
identifyLeavingConstraint: none models the throwing/undefined branch (key
absent, or empty vector). -/
def readLambda (lambdas : List (Nat × List ℚ)) (f : LinearInequality) : Option ℚ :=
  (assocFind lambdas f.dualKey).bind List.head?

/-- The loop body of ActiveSetSolver::identifyLeavingConstraint: iterate over
the working set keeping the running maximum lambda (initially 0) and the
index of the active factor that attained it (initially -1); only active
factors are examined, and a lambda replaces the running maximum only when
strictly greater. A failing multiplier lookup aborts with none. -/
def identifyLoop (lambdas : List (Nat × List ℚ)) :
    List LinearInequality → Nat → ℤ → ℚ → Option ℤ
  | [], _, worstFactorIx, _ => some worstFactorIx
  | factor :: rest, factorIx, worstFactorIx, maxLambda =>
    if factor.active = true then
      match readLambda lambdas factor with
      | none => none
      | some lam =>
        if maxLambda < lam then
          identifyLoop lambdas rest (factorIx + 1) (factorIx : ℤ) lam
        else
          identifyLoop lambdas rest (factorIx + 1) worstFactorIx maxLambda
    else
      identifyLoop lambdas rest (factorIx + 1) worstFactorIx maxLambda

/-- ActiveSetSolver::identifyLeavingConstraint: index of the active factor
with the largest multiplier above 0, or -1; none models the exception from a
failed multiplier lookup. -/
def identifyLeavingConstraint (workingSet : List LinearInequality)
    (lambdas : List (Nat × List ℚ)) : Option ℤ :=
  identifyLoop lambdas workingSet 0 (-1) 0

/-- A factor as seen by the collectDualJacobians template: per-key Jacobian
blocks, an activity flag and a dual key. -/
structure DualSourceFactor where
  terms : List (Nat × List (List ℚ))
  active : Bool
  dualKey : Nat
  deriving DecidableEq, Repr

/-- The read factor.getA(factor.find(key)) : the Jacobian block of the factor
at the given key; none models the undefined result when the key is not in
the factor. -/
def getA (f : DualSourceFactor) (key : Nat) : Option (List (List ℚ)) :=
  (f.terms.find? fun t => t.1 == key).map fun t => t.2

/-- The loop body of ActiveSetSolver::collectDualJacobians: for each factor
index from the variable index entry, skip inactive factors, and for active
ones append (dualKey, A^T at key); none models an out-of-range factor index
or a factor that does not contain the key. -/
def collectLoop (key : Nat) (graph : List DualSourceFactor) :
    List Nat → Option (List (Nat × List (List ℚ)))
  | [] => some []
  | factorIx :: rest =>
    match graph.get? factorIx with
    | none => none
    | some factor =>
      if factor.active = true then
        match getA factor key with
        | none => none
        | some A =>
          (collectLoop key graph rest).map
            fun Aterms => (factor.dualKey, A.transpose) :: Aterms
      else collectLoop key graph rest

/-- ActiveSetSolver::collectDualJacobians: the (dualKey, transposed Jacobian
block) pairs of the active factors referencing the key, empty when the key
is absent from the variable index. -/
def collectDualJacobians (key : Nat) (graph : List DualSourceFactor)
    (variableIndex : List (Nat × List Nat)) :
    Option (List (Nat × List (List ℚ))) :=
  match assocFind variableIndex key with
  | none => some []
  | some factorIxs => collectLoop key graph factorIxs

/-- ActiveSetSolver::buildDualGraph: for each constrained key call the
subclass-supplied createDualFactor once and push the result onto the dual
graph unless it is empty. -/
def buildDualGraph
    (createDualFactor : Nat → List LinearInequality → (Nat → ℚ) →
      List (Nat × List (List ℚ)))
    (constrainedKeys : List Nat) (workingSet : List LinearInequality)
    (delta : Nat → ℚ) : List (List (Nat × List (List ℚ))) :=
  constrainedKeys.foldl
    (fun dualGraph key =>
      let dualFactor := createDualFactor key workingSet delta
      if dualFactor.isEmpty = true then dualGraph else dualGraph ++ [dualFactor])
    []

/-- Postcondition of the computeStepSize loop, relative to the running state
(start index i0, running minimum m0, running argmin c0): either no candidate
improves on m0 and the accumulator is returned unchanged, or the result is
the first position whose candidate attains the overall minimum, which is
strictly below m0. -/
def StepSpec (xk p : Nat → ℚ) (l : List LinearInequality) (i0 : Nat) (m0 : ℚ)
    (c0 : ℤ) (r : ℚ × ℤ) : Prop :=
  (r.2 = c0 ∧ r.1 = m0 ∧ ∀ f ∈ l, ∀ α, candAlpha xk p f = some α → m0 ≤ α)
  ∨ (∃ j f, l.get? j = some f ∧ r.2 = ((i0 + j : Nat) : ℤ) ∧
      candAlpha xk p f = some r.1 ∧ r.1 < m0 ∧
      (∀ g ∈ l, ∀ α, candAlpha xk p g = some α → r.1 ≤ α) ∧
      (∀ k, k < j → ∀ g, l.get? k = some g → ∀ α, candAlpha xk p g = some α →
        r.1 < α))

/-- Postcondition of the identifyLeavingConstraint loop, relative to the
running state (start index i0, running argmax w0, running maximum m0): either
no active factor's multiplier exceeds m0 and the accumulator is returned
unchanged, or the result is the first position of an active factor whose
multiplier attains the overall maximum, which is strictly above m0. -/
def IdentifySpec (lambdas : List (Nat × List ℚ)) (l : List LinearInequality)
    (i0 : Nat) (w0 : ℤ) (m0 : ℚ) (r : Option ℤ) : Prop :=
  (r = some w0 ∧ ∀ f ∈ l, f.active = true → ∀ lam,
      readLambda lambdas f = some lam → lam ≤ m0)
  ∨ (∃ j f lam, l.get? j = some f ∧ r = some ((i0 + j : Nat) : ℤ) ∧
      f.active = true ∧ readLambda lambdas f = some lam ∧ m0 < lam ∧
      (∀ g ∈ l, g.active = true → ∀ mu, readLambda lambdas g = some mu →
        mu ≤ lam) ∧
      (∀ k, k < j → ∀ g, l.get? k = some g → g.active = true → ∀ mu,
        readLambda lambdas g = some mu → mu < lam))

/-- Concrete point used in witness instances: all coordinates zero. -/
def xZero : Nat → ℚ := fun _ => 0

/-- Concrete direction used in witness instances: all coordinates one. -/
def pOne : Nat → ℚ := fun _ => 1

/-- Concrete inactive inequality factor x0 <= 1: from xZero along pOne its
candidate step bound is 1. -/
def fA : LinearInequality := ⟨[(0, 1)], 1, false, 10⟩

/-- A second inactive inequality factor with the same row and bound as fA, so
the two tie at candidate step bound 1. -/
def fB : LinearInequality := ⟨[(0, 1)], 1, false, 11⟩

/-- Concrete active inequality factor with dual key 12. -/
def fC : LinearInequality := ⟨[(0, 1)], 2, true, 12⟩

/-- Working set with two tying inactive factors. -/
def wsTie : List LinearInequality := [fA, fB]

/-- Working set with an active factor followed by an inactive one. -/
def wsOne : List LinearInequality := [fC, fA]

/-- Working set with a single active factor. -/
def wsAct : List LinearInequality := [fC]

/-- Multipliers giving the active factor fC the positive multiplier 3. -/
def lamEx : List (Nat × List ℚ) := [(12, [3])]

/-- Concrete factor for the dual-Jacobian collection: active, dual key 20,
with a 1x2 Jacobian block at key 0. -/
def dfA : DualSourceFactor := ⟨[(0, [[1, 2]])], true, 20⟩

/-- Concrete factor for the dual-Jacobian collection: inactive at key 0. -/
def dfB : DualSourceFactor := ⟨[(0, [[3, 4]])], false, 21⟩

/-- Concrete dual-source graph of two factors. -/
def dgEx : List DualSourceFactor := [dfA, dfB]

/-- Concrete variable index sending key 0 to both factors of dgEx. -/
def viEx : List (Nat × List Nat) := [(0, [0, 1])]

/-- A factor that produces no candidate is skipped: the loop postcondition
lifts from the tail to the whole list. -/
theorem stepSpec_skip (xk p : Nat → ℚ) (f : LinearInequality)
    (rest : List LinearInequality) (i0 : Nat) (m0 : ℚ) (c0 : ℤ) (r : ℚ × ℤ)
    (hcand : candAlpha xk p f = none)
    (h : StepSpec xk p rest (i0 + 1) m0 c0 r) :
    StepSpec xk p (f :: rest) i0 m0 c0 r := by
  rcases h with ⟨h2, h1, hall⟩ | ⟨j, g, hg, h2, hcg, hlt, hall, hfirst⟩
  · left
    refine ⟨h2, h1, ?_⟩
    intro f2 hf2 α hα
    rcases List.mem_cons.mp hf2 with rfl | hf2
    · rw [hcand] at hα
      exact absurd hα (by simp)
    · exact hall f2 hf2 α hα
  · right
    refine ⟨j + 1, g, by simpa using hg, ?_, hcg, hlt, ?_, ?_⟩
    · rw [h2]
      congr 1
      omega
    · intro g2 hg2 α hα
      rcases List.mem_cons.mp hg2 with rfl | hg2
      · rw [hcand] at hα
        exact absurd hα (by simp)
      · exact hall g2 hg2 α hα
    · intro k hk g2 hg2 α hα
      match k, hg2 with
      | 0, hg2 =>
        have : f = g2 := by simpa using hg2
        subst this
        rw [hcand] at hα
        exact absurd hα (by simp)
      | k + 1, hg2 =>
        exact hfirst k (by omega) g2 (by simpa using hg2) α hα

/-- Invariant of the computeStepSize loop: from any running state, the loop
returns a pair satisfying StepSpec. -/
theorem stepLoop_spec (xk p : Nat → ℚ) (l : List LinearInequality) :
    ∀ (i0 : Nat) (m0 : ℚ) (c0 : ℤ),
      StepSpec xk p l i0 m0 c0 (stepLoop xk p l i0 m0 c0) := by
  induction l with
  | nil =>
    intro i0 m0 c0
    left
    exact ⟨rfl, rfl, by simp⟩
  | cons f rest ih =>
    intro i0 m0 c0
    by_cases hact : f.active = true
    · have hstep : stepLoop xk p (f :: rest) i0 m0 c0 =
          stepLoop xk p rest (i0 + 1) m0 c0 := by
        simp [stepLoop, hact]
      have hcand : candAlpha xk p f = none := by
        simp [candAlpha, hact]
      rw [hstep]
      exact stepSpec_skip xk p f rest i0 m0 c0 _ hcand (ih (i0 + 1) m0 c0)
    · have hactF : f.active = false := by simpa using hact
      by_cases hp : dotProductRow f p ≤ 0
      · have hstep : stepLoop xk p (f :: rest) i0 m0 c0 =
            stepLoop xk p rest (i0 + 1) m0 c0 := by
          simp [stepLoop, hactF, hp]
        have hcand : candAlpha xk p f = none := by
          simp [candAlpha, hactF, not_lt.mpr hp]
        rw [hstep]
        exact stepSpec_skip xk p f rest i0 m0 c0 _ hcand (ih (i0 + 1) m0 c0)
      · have hp' : 0 < dotProductRow f p := not_le.mp hp
        have hcand : candAlpha xk p f =
            some ((f.b - dotProductRow f xk) / dotProductRow f p) := by
          simp [candAlpha, hactF, hp']
        by_cases hlt0 : (f.b - dotProductRow f xk) / dotProductRow f p < m0
        · have hstep : stepLoop xk p (f :: rest) i0 m0 c0 =
              stepLoop xk p rest (i0 + 1)
                ((f.b - dotProductRow f xk) / dotProductRow f p) (i0 : ℤ) := by
            simp [stepLoop, hactF, hp, hlt0]
          rw [hstep]
          rcases ih (i0 + 1) ((f.b - dotProductRow f xk) / dotProductRow f p)
              (i0 : ℤ) with ⟨h2, h1, hall⟩ | ⟨j, g, hg, h2, hcg, hlt, hall, hfirst⟩
          · right
            refine ⟨0, f, rfl, ?_, ?_, ?_, ?_, ?_⟩
            · rw [h2]
              omega
            · rw [h1, hcand]
            · rw [h1]
              exact hlt0
            · intro g2 hg2 α hα
              rcases List.mem_cons.mp hg2 with rfl | hg2
              · rw [hcand] at hα
                rw [h1]
                exact le_of_eq (Option.some_injective _ hα)
              · rw [h1]
                exact hall g2 hg2 α hα
            · intro k hk
              omega
          · right
            refine ⟨j + 1, g, by simpa using hg, ?_, hcg, lt_trans hlt hlt0, ?_, ?_⟩
            · rw [h2]
              congr 1
              omega
            · intro g2 hg2 α hα
              rcases List.mem_cons.mp hg2 with rfl | hg2
              · rw [hcand] at hα
                rw [← (Option.some_injective _ hα)]
                exact le_of_lt hlt
              · exact hall g2 hg2 α hα
            · intro k hk g2 hg2 α hα
              match k, hg2 with
              | 0, hg2 =>
                have : f = g2 := by simpa using hg2
                subst this
                rw [hcand] at hα
                rw [← (Option.some_injective _ hα)]
                exact hlt
              | k + 1, hg2 =>
                exact hfirst k (by omega) g2 (by simpa using hg2) α hα
        · have hstep : stepLoop xk p (f :: rest) i0 m0 c0 =
              stepLoop xk p rest (i0 + 1) m0 c0 := by
            simp [stepLoop, hactF, hp, hlt0]
          have hge : m0 ≤ (f.b - dotProductRow f xk) / dotProductRow f p :=
            not_lt.mp hlt0
          rw [hstep]
          rcases ih (i0 + 1) m0 c0 with ⟨h2, h1, hall⟩ |
              ⟨j, g, hg, h2, hcg, hlt, hall, hfirst⟩
          · left
            refine ⟨h2, h1, ?_⟩
            intro f2 hf2 α hα
            rcases List.mem_cons.mp hf2 with rfl | hf2
            · rw [hcand] at hα
              rw [← (Option.some_injective _ hα)]
              exact hge
            · exact hall f2 hf2 α hα
          · right
            refine ⟨j + 1, g, by simpa using hg, ?_, hcg, hlt, ?_, ?_⟩
            · rw [h2]
              congr 1
              omega
            · intro g2 hg2 α hα
              rcases List.mem_cons.mp hg2 with rfl | hg2
              · rw [hcand] at hα
                rw [← (Option.some_injective _ hα)]
                exact le_of_lt (lt_of_lt_of_le hlt hge)
              · exact hall g2 hg2 α hα
            · intro k hk g2 hg2 α hα
              match k, hg2 with
              | 0, hg2 =>
                have : f = g2 := by simpa using hg2
                subst this
                rw [hcand] at hα
                rw [← (Option.some_injective _ hα)]
                exact lt_of_lt_of_le hlt hge
              | k + 1, hg2 =>
                exact hfirst k (by omega) g2 (by simpa using hg2) α hα

/-- An inactive factor is skipped by the identifyLeavingConstraint loop: the
postcondition lifts from the tail to the whole list. -/
theorem identifySpec_skip (lambdas : List (Nat × List ℚ))
    (f : LinearInequality) (rest : List LinearInequality) (i0 : Nat) (w0 : ℤ)
    (m0 : ℚ) (r : Option ℤ) (hinact : f.active = false)
    (h : IdentifySpec lambdas rest (i0 + 1) w0 m0 r) :
    IdentifySpec lambdas (f :: rest) i0 w0 m0 r := by
  rcases h with ⟨h2, hall⟩ | ⟨j, g, lam, hg, h2, hgact, hread, hlt, hall, hfirst⟩
  · left
    refine ⟨h2, ?_⟩
    intro f2 hf2 hf2act lam hlam
    rcases List.mem_cons.mp hf2 with rfl | hf2
    · rw [hinact] at hf2act
      exact absurd hf2act (by simp)
    · exact hall f2 hf2 hf2act lam hlam
  · right
    refine ⟨j + 1, g, lam, by simpa using hg, ?_, hgact, hread, hlt, ?_, ?_⟩
    · rw [h2]
      congr 2
      omega
    · intro g2 hg2 hg2act mu hmu
      rcases List.mem_cons.mp hg2 with rfl | hg2
      · rw [hinact] at hg2act
        exact absurd hg2act (by simp)
      · exact hall g2 hg2 hg2act mu hmu
    · intro k hk g2 hg2 hg2act mu hmu
      match k, hg2 with
      | 0, hg2 =>
        have : f = g2 := by simpa using hg2
        subst this
        rw [hinact] at hg2act
        exact absurd hg2act (by simp)
      | k + 1, hg2 =>
        exact hfirst k (by omega) g2 (by simpa using hg2) hg2act mu hmu

/-- Invariant of the identifyLeavingConstraint loop: from any running state,
when every active factor's multiplier lookup succeeds, the loop returns some
result satisfying IdentifySpec. -/
theorem identifyLoop_spec (lambdas : List (Nat × List ℚ))
    (l : List LinearInequality) :
    ∀ (i0 : Nat) (w0 : ℤ) (m0 : ℚ),
      (∀ f ∈ l, f.active = true → (readLambda lambdas f).isSome = true) →
      IdentifySpec lambdas l i0 w0 m0 (identifyLoop lambdas l i0 w0 m0) := by
  induction l with
  | nil =>
    intro i0 w0 m0 _
    left
    exact ⟨rfl, by simp⟩
  | cons f rest ih =>
    intro i0 w0 m0 hsome
    have hsomeRest : ∀ g ∈ rest, g.active = true →
        (readLambda lambdas g).isSome = true := by
      intro g hg
      exact hsome g (List.mem_cons_of_mem f hg)
    by_cases hact : f.active = true
    · obtain ⟨lam, hlam⟩ :=
        Option.isSome_iff_exists.mp (hsome f (List.mem_cons_self f rest) hact)
    
      by_cases hgt : m0 < lam
      · have hstep : identifyLoop lambdas (f :: rest) i0 w0 m0 =
            identifyLoop lambdas rest (i0 + 1) (i0 : ℤ) lam := by
          simp [identifyLoop, hact, hlam, hgt]
        rw [hstep]
        rcases ih (i0 + 1) (i0 : ℤ) lam hsomeRest with ⟨h2, hall⟩ |
            ⟨j, g, lam2, hg, h2, hgact, hread, hlt, hall, hfirst⟩
        · right
          refine ⟨0, f, lam, rfl, ?_, hact, hlam, hgt, ?_, ?_⟩
          · simp [h2]
          · intro g2 hg2 hg2act mu hmu
            rcases List.mem_cons.mp hg2 with rfl | hg2
            · rw [hlam] at hmu
              exact le_of_eq (Option.some_injective _ hmu).symm
            · exact hall g2 hg2 hg2act mu hmu
          · intro k hk
            omega
        · right
          refine ⟨j + 1, g, lam2, by simpa using hg, ?_, hgact, hread,
              lt_trans hgt hlt, ?_, ?_⟩
          · rw [h2]
            congr 2
            omega
          · intro g2 hg2 hg2act mu hmu
            rcases List.mem_cons.mp hg2 with rfl | hg2
            · rw [hlam] at hmu
              rw [← (Option.some_injective _ hmu)]
              exact le_of_lt hlt
            · exact hall g2 hg2 hg2act mu hmu
          · intro k hk g2 hg2 hg2act mu hmu
            match k, hg2 with
            | 0, hg2 =>
              have : f = g2 := by simpa using hg2
              subst this
              rw [hlam] at hmu
              rw [← (Option.some_injective _ hmu)]
              exact hlt
            | k + 1, hg2 =>
              exact hfirst k (by omega) g2 (by simpa using hg2) hg2act mu hmu
      · have hstep : identifyLoop lambdas (f :: rest) i0 w0 m0 =
            identifyLoop lambdas rest (i0 + 1) w0 m0 := by
          simp [identifyLoop, hact, hlam, hgt]
        have hge : lam ≤ m0 := not_lt.mp hgt
        rw [hstep]
        rcases ih (i0 + 1) w0 m0 hsomeRest with ⟨h2, hall⟩ |
            ⟨j, g, lam2, hg, h2, hgact, hread, hlt, hall, hfirst⟩
        · left
          refine ⟨h2, ?_⟩
          intro f2 hf2 hf2act mu hmu
          rcases List.mem_cons.mp hf2 with rfl | hf2
          · rw [hlam] at hmu
            rw [← (Option.some_injective _ hmu)]
            exact hge
          · exact hall f2 hf2 hf2act mu hmu
        · right
          refine ⟨j + 1, g, lam2, by simpa using hg, ?_, hgact, hread, hlt, ?_, ?_⟩
          · rw [h2]
            congr 2
            omega
          · intro g2 hg2 hg2act mu hmu
            rcases List.mem_cons.mp hg2 with rfl | hg2
            · rw [hlam] at hmu
              rw [← (Option.some_injective _ hmu)]
              exact le_of_lt (lt_of_le_of_lt hge hlt)
            · exact hall g2 hg2 hg2act mu hmu
          · intro k hk g2 hg2 hg2act mu hmu
            match k, hg2 with
            | 0, hg2 =>
              have : f = g2 := by simpa using hg2
              subst this
              rw [hlam] at hmu
              rw [← (Option.some_injective _ hmu)]
              exact lt_of_le_of_lt hge hlt
            | k + 1, hg2 =>
              exact hfirst k (by omega) g2 (by simpa using hg2) hg2act mu hmu
    · have hactF : f.active = false := by simpa using hact
      have hstep : identifyLoop lambdas (f :: rest) i0 w0 m0 =
          identifyLoop lambdas rest (i0 + 1) w0 m0 := by
        simp [identifyLoop, hactF]
      rw [hstep]
      exact identifySpec_skip lambdas f rest i0 w0 m0 _ hactF
        (ih (i0 + 1) w0 m0 hsomeRest)

/-- Inversion for candAlpha: a candidate is produced exactly for an inactive
factor with positive a^T p, and its value is (b - a^T xk) / (a^T p). -/
theorem candAlpha_some_iff (xk p : Nat → ℚ) (f : LinearInequality) (α : ℚ) :
    candAlpha xk p f = some α ↔
      f.active = false ∧ 0 < dotProductRow f p ∧
        (f.b - dotProductRow f xk) / dotProductRow f p = α := by
  unfold candAlpha
  split_ifs with h
  · simp [h.1, h.2]
  · constructor
    · intro hfalse
      exact absurd hfalse (by simp)
    · rintro ⟨h1, h2, h3⟩
      exact absurd ⟨h1, h2⟩ h

/-- Linearity of the row dot product: evaluating the row at xk + c * p splits
into the two dot products. -/
theorem dotProductRow_add_smul (f : LinearInequality) (x y : Nat → ℚ) (c : ℚ) :
    dotProductRow f (fun k => x k + c * y k) =
      dotProductRow f x + c * dotProductRow f y := by
  have key : ∀ l : List (Nat × ℚ),
      (l.map fun t => t.2 * (x t.1 + c * y t.1)).sum =
        (l.map fun t => t.2 * x t.1).sum +
          c * (l.map fun t => t.2 * y t.1).sum := by
    intro l
    induction l with
    | nil => simp
    | cons t rest ih =>
      simp only [List.map_cons, List.sum_cons, ih]
      ring
  simpa [dotProductRow] using key f.row

/-- The identifyLeavingConstraint loop reads the multiplier map only at the
dual keys of active factors: two multiplier maps agreeing there produce
identical runs. -/
theorem identifyLoop_congr (lambdas lambdas2 : List (Nat × List ℚ))
    (l : List LinearInequality) :
    ∀ (i0 : Nat) (w0 : ℤ) (m0 : ℚ),
      (∀ f ∈ l, f.active = true →
        assocFind lambdas2 f.dualKey = assocFind lambdas f.dualKey) →
      identifyLoop lambdas2 l i0 w0 m0 = identifyLoop lambdas l i0 w0 m0 := by
  induction l with
  | nil =>
    intro i0 w0 m0 _
    rfl
  | cons f rest ih =>
    intro i0 w0 m0 hagree
    have hagreeRest : ∀ g ∈ rest, g.active = true →
        assocFind lambdas2 g.dualKey = assocFind lambdas g.dualKey := by
      intro g hg
      exact hagree g (List.mem_cons_of_mem f hg)
    by_cases hact : f.active = true
    · have hread : readLambda lambdas2 f = readLambda lambdas f := by
        unfold readLambda
        rw [hagree f (List.mem_cons_self f rest) hact]
      simp only [identifyLoop, hact, if_true]
      rw [hread]
      cases hr : readLambda lambdas f with
      | none => rfl
      | some lam =>
        by_cases hgt : m0 < lam
        · simp only [if_pos hgt]
          exact ih (i0 + 1) (i0 : ℤ) lam hagreeRest
        · simp only [if_neg hgt]
          exact ih (i0 + 1) w0 m0 hagreeRest
    · have hactF : f.active = false := by simpa using hact
      simp only [identifyLoop, hactF]
      simp only [Bool.false_eq_true, if_false]
      exact ih (i0 + 1) w0 m0 hagreeRest

/-- The buildDualGraph fold, started from any accumulated graph, appends
exactly the non-empty dual factors of the remaining keys in order. -/
theorem buildDualGraph_foldl
    (createDualFactor : Nat → List LinearInequality → (Nat → ℚ) →
      List (Nat × List (List ℚ)))
    (workingSet : List LinearInequality) (delta : Nat → ℚ) :
    ∀ (keys : List Nat) (acc : List (List (Nat × List (List ℚ)))),
      keys.foldl
        (fun dualGraph key =>
          let dualFactor := createDualFactor key workingSet delta
          if dualFactor.isEmpty = true then dualGraph
          else dualGraph ++ [dualFactor]) acc =
      acc ++ ((keys.map fun key => createDualFactor key workingSet delta).filter
        fun dualFactor => !dualFactor.isEmpty) := by
  intro keys
  induction keys with
  | nil =>
    intro acc
    simp
  | cons key rest ih =>
    intro acc
    rw [List.foldl_cons, ih]
    by_cases hd : (createDualFactor key workingSet delta).isEmpty = true
    · simp [hd, List.filter_cons]
    · simp [hd, List.filter_cons, List.append_assoc]

/-- The collectDualJacobians loop over a well-formed list of factor indices
succeeds and returns, in order, the (dualKey, transposed block) pair of each
active referenced factor. -/
theorem collectLoop_spec (key : Nat) (graph : List DualSourceFactor) :
    ∀ (factorIxs : List Nat),
      (∀ ix ∈ factorIxs, ∃ f, graph.get? ix = some f ∧
        (f.active = true → (getA f key).isSome = true)) →
      collectLoop key graph factorIxs =
        some (factorIxs.filterMap fun ix =>
          (graph.get? ix).bind fun f =>
            if f.active = true then
              (getA f key).map fun A => (f.dualKey, A.transpose)
            else none) := by
  intro factorIxs
  induction factorIxs with
  | nil =>
    intro _
    rfl
  | cons ix rest ih =>
    intro hwf
    obtain ⟨f, hf, hfa⟩ := hwf ix (List.mem_cons_self ix rest)
    have hrest : ∀ ix2 ∈ rest, ∃ f2, graph.get? ix2 = some f2 ∧
        (f2.active = true → (getA f2 key).isSome = true) := by
      intro ix2 hix2
      exact hwf ix2 (List.mem_cons_of_mem ix hix2)
    have hf2 : graph[ix]? = some f := by simpa using hf
    by_cases hact : f.active = true
    · obtain ⟨A, hA⟩ := Option.isSome_iff_exists.mp (hfa hact)
      simp only [collectLoop, hf, hact, hA, if_true]
      rw [ih hrest]
      simp [List.filterMap_cons, hf2, hact, hA]
    · have hactF : f.active = false := by simpa using hact
      simp only [collectLoop, hf, hactF]
      rw [ih hrest]
      simp [List.filterMap_cons, hf2, hactF]

/-- Claim C1: computeStepSize returns a step alpha equal to the minimum of
startAlpha and, over every inactive inequality factor whose row satisfies
a^T p > 0, the candidate (b - a^T xk) / (a^T p); inactive factors with
a^T p <= 0 contribute no candidate. The minimum is characterized order
theoretically: alpha is a lower bound of startAlpha and of every candidate,
and it is attained by startAlpha or by some candidate. -/
theorem computeStepSize_min_of_candidates (workingSet : List LinearInequality)
    (xk p : Nat → ℚ) (startAlpha : ℚ) :
    ((computeStepSize workingSet xk p startAlpha).1 ≤ startAlpha ∧
      ∀ f ∈ workingSet, f.active = false → 0 < dotProductRow f p →
        (computeStepSize workingSet xk p startAlpha).1 ≤
          (f.b - dotProductRow f xk) / dotProductRow f p) ∧
    ((computeStepSize workingSet xk p startAlpha).1 = startAlpha ∨
      ∃ f ∈ workingSet, f.active = false ∧ 0 < dotProductRow f p ∧
        (f.b - dotProductRow f xk) / dotProductRow f p =
          (computeStepSize workingSet xk p startAlpha).1) := by
  have hspec : StepSpec xk p workingSet 0 startAlpha (-1)
      (computeStepSize workingSet xk p startAlpha) :=
    stepLoop_spec xk p workingSet 0 startAlpha (-1)
  rcases hspec with ⟨h2, h1, hall⟩ | ⟨j, f, hget, h2, hcand, hlt, hall, hfirst⟩
  · refine ⟨⟨le_of_eq h1, ?_⟩, Or.inl h1⟩
    intro f hf hfact hfp
    rw [h1]
    exact hall f hf _ ((candAlpha_some_iff xk p f _).mpr ⟨hfact, hfp, rfl⟩)
  · obtain ⟨hfact, hfp, hval⟩ := (candAlpha_some_iff xk p f _).mp hcand
    refine ⟨⟨le_of_lt hlt, ?_⟩,
      Or.inr ⟨f, List.get?_mem hget, hfact, hfp, hval⟩⟩
    intro g hg hgact hgp
    exact hall g hg _ ((candAlpha_some_iff xk p g _).mpr ⟨hgact, hgp, rfl⟩)

/-- Claim C3: the factor index returned by computeStepSize is the working-set
index of a factor attaining the minimal alpha, and it is -1 exactly when no
inactive constraint binds strictly before startAlpha (a candidate equal to
startAlpha still yields -1). -/
theorem computeStepSize_leaving_index (workingSet : List LinearInequality)
    (xk p : Nat → ℚ) (startAlpha : ℚ) :
    ((computeStepSize workingSet xk p startAlpha).2 = -1 ↔
      ∀ f ∈ workingSet, f.active = false → 0 < dotProductRow f p →
        startAlpha ≤ (f.b - dotProductRow f xk) / dotProductRow f p) ∧
    ∀ j : ℕ, (computeStepSize workingSet xk p startAlpha).2 = (j : ℤ) →
      ∃ f, workingSet.get? j = some f ∧ f.active = false ∧
        0 < dotProductRow f p ∧
        (f.b - dotProductRow f xk) / dotProductRow f p =
          (computeStepSize workingSet xk p startAlpha).1 := by
  have hspec : StepSpec xk p workingSet 0 startAlpha (-1)
      (computeStepSize workingSet xk p startAlpha) :=
    stepLoop_spec xk p workingSet 0 startAlpha (-1)
  rcases hspec with ⟨h2, h1, hall⟩ | ⟨j', f, hget, h2, hcand, hlt, hall, hfirst⟩
  · constructor
    · constructor
      · intro _ f hf hfact hfp
        exact hall f hf _ ((candAlpha_some_iff xk p f _).mpr ⟨hfact, hfp, rfl⟩)
      · intro _
        exact h2
    · intro j hj
      rw [h2] at hj
      exact absurd hj (by omega)
  · obtain ⟨hfact, hfp, hval⟩ := (candAlpha_some_iff xk p f _).mp hcand
    constructor
    · constructor
      · intro habs
        rw [habs] at h2
        exact absurd h2 (by omega)
      · intro hge
        exfalso
        have hle := hge f (List.get?_mem hget) hfact hfp
        rw [hval] at hle
        exact absurd hlt (not_lt.mpr hle)
    · intro j hj
      have hj' : j' = j := by
        rw [hj] at h2
        omega
      subst hj'
      exact ⟨f, hget, hfact, hfp, hval⟩

/-- Claim C4: when two or more inactive factors attain the same minimal
candidate alpha strictly below startAlpha, computeStepSize returns the
lowest working-set index among them: the returned index attains alpha, is at
most the first given attainer, and every smaller index has a strictly larger
candidate. -/
theorem computeStepSize_tie_lowest_index (workingSet : List LinearInequality)
    (xk p : Nat → ℚ) (startAlpha alpha : ℚ) (i j : ℕ)
    (fi fj : LinearInequality) (hij : i < j)
    (hgi : workingSet.get? i = some fi) (hgj : workingSet.get? j = some fj)
    (hcai : fi.active = false ∧ 0 < dotProductRow fi p ∧
      (fi.b - dotProductRow fi xk) / dotProductRow fi p = alpha)
    (hcaj : fj.active = false ∧ 0 < dotProductRow fj p ∧
      (fj.b - dotProductRow fj xk) / dotProductRow fj p = alpha)
    (halpha : alpha < startAlpha)
    (hmin : ∀ g ∈ workingSet, g.active = false → 0 < dotProductRow g p →
      alpha ≤ (g.b - dotProductRow g xk) / dotProductRow g p) :
    ∃ k, k ≤ i ∧ (computeStepSize workingSet xk p startAlpha).2 = (k : ℤ) ∧
      (computeStepSize workingSet xk p startAlpha).1 = alpha ∧
      (∃ g, workingSet.get? k = some g ∧ g.active = false ∧
        0 < dotProductRow g p ∧
        (g.b - dotProductRow g xk) / dotProductRow g p = alpha) ∧
      ∀ k2, k2 < k → ∀ g, workingSet.get? k2 = some g → g.active = false →
        0 < dotProductRow g p →
        alpha < (g.b - dotProductRow g xk) / dotProductRow g p := by
  have hspec : StepSpec xk p workingSet 0 startAlpha (-1)
      (computeStepSize workingSet xk p startAlpha) :=
    stepLoop_spec xk p workingSet 0 startAlpha (-1)
  have hcandi : candAlpha xk p fi = some alpha :=
    (candAlpha_some_iff xk p fi alpha).mpr hcai
  rcases hspec with ⟨h2, h1, hall⟩ | ⟨j', f', hget, h2, hcand, hlt, hall, hfirst⟩
  · exfalso
    have := hall fi (List.get?_mem hgi) alpha hcandi
    exact absurd halpha (not_lt.mpr this)
  · have hle1 : (computeStepSize workingSet xk p startAlpha).1 ≤ alpha :=
      hall fi (List.get?_mem hgi) alpha hcandi
    obtain ⟨hf'act, hf'p, hf'val⟩ := (candAlpha_some_iff xk p f' _).mp hcand
    have hle2 : alpha ≤ (computeStepSize workingSet xk p startAlpha).1 := by
      have := hmin f' (List.get?_mem hget) hf'act hf'p
      rw [hf'val] at this
      exact this
    have heq : (computeStepSize workingSet xk p startAlpha).1 = alpha :=
      le_antisymm hle1 hle2
    have hji : j' ≤ i := by
      by_contra hgt
      push_neg at hgt
      have := hfirst i hgt fi hgi alpha hcandi
      rw [heq] at this
      exact lt_irrefl _ this
    refine ⟨j', hji, ?_, heq,
      ⟨f', hget, hf'act, hf'p, by rw [hf'val, heq]⟩, ?_⟩
    · rw [h2]
      omega
    · intro k2 hk2 g hg2 hgact hgp
      have := hfirst k2 hk2 g hg2 _
        ((candAlpha_some_iff xk p g _).mpr ⟨hgact, hgp, rfl⟩)
      rw [heq] at this
      exact this

/-- Claim C4, witness: in the two-factor tie wsTie at alpha 1 below
startAlpha 2, the first index 0 is returned. -/
theorem computeStepSize_tie_lowest_index_witness :
    (0 : ℕ) < 1 ∧ wsTie.get? 0 = some fA ∧ wsTie.get? 1 = some fB ∧
    (fA.active = false ∧ 0 < dotProductRow fA pOne ∧
      (fA.b - dotProductRow fA xZero) / dotProductRow fA pOne = 1) ∧
    (fB.active = false ∧ 0 < dotProductRow fB pOne ∧
      (fB.b - dotProductRow fB xZero) / dotProductRow fB pOne = 1) ∧
    (1 : ℚ) < 2 ∧
    (∃ k : ℕ, k ≤ 0 ∧ (computeStepSize wsTie xZero pOne 2).2 = (k : ℤ) ∧
      (computeStepSize wsTie xZero pOne 2).1 = 1 ∧
      (∃ g, wsTie.get? k = some g ∧ g.active = false ∧
        0 < dotProductRow g pOne ∧
        (g.b - dotProductRow g xZero) / dotProductRow g pOne = 1) ∧
      ∀ k2, k2 < k → ∀ g, wsTie.get? k2 = some g → g.active = false →
        0 < dotProductRow g pOne →
        (1 : ℚ) < (g.b - dotProductRow g xZero) / dotProductRow g pOne) := by
  refine ⟨by norm_num, rfl, rfl, ?_, ?_, by norm_num, ?_⟩
  · exact ⟨rfl, by norm_num [fA, dotProductRow, pOne],
      by norm_num [fA, dotProductRow, pOne, xZero]⟩
  · exact ⟨rfl, by norm_num [fB, dotProductRow, pOne],
      by norm_num [fB, dotProductRow, pOne, xZero]⟩
  · exact computeStepSize_tie_lowest_index wsTie xZero pOne 2 1 0 1 fA fB
      (by norm_num) rfl rfl
      ⟨rfl, by norm_num [fA, dotProductRow, pOne],
        by norm_num [fA, dotProductRow, pOne, xZero]⟩
      ⟨rfl, by norm_num [fB, dotProductRow, pOne],
        by norm_num [fB, dotProductRow, pOne, xZero]⟩
      (by norm_num)
      (by
        intro g hg hgact hgp
        simp only [wsTie, List.mem_cons, List.mem_singleton] at hg
        rcases hg with rfl | rfl | hg
        · norm_num [fA, dotProductRow, pOne, xZero]
        · norm_num [fB, dotProductRow, pOne, xZero]
        · simp at hg)

/-- Claim C5: computeStepSize never returns the index of an already-active
factor: whenever it returns a nonnegative index, the factor stored at that
working-set index is inactive. -/
theorem computeStepSize_skips_active (workingSet : List LinearInequality)
    (xk p : Nat → ℚ) (startAlpha : ℚ) (j : ℕ) (f : LinearInequality)
    (hj : (computeStepSize workingSet xk p startAlpha).2 = (j : ℤ))
    (hf : workingSet.get? j = some f) :
    f.active = false := by
  have hspec : StepSpec xk p workingSet 0 startAlpha (-1)
      (computeStepSize workingSet xk p startAlpha) :=
    stepLoop_spec xk p workingSet 0 startAlpha (-1)
  rcases hspec with ⟨h2, h1, hall⟩ | ⟨j', f', hget, h2, hcand, hlt, hall, hfirst⟩
  · rw [hj] at h2
    exact absurd h2 (by omega)
  · have hj' : j' = j := by
      rw [hj] at h2
      omega
    subst hj'
    rw [hget] at hf
    rw [← Option.some_injective _ hf]
    exact ((candAlpha_some_iff xk p f' _).mp hcand).1

/-- Claim C5, witness: on wsOne the returned index 1 designates the inactive
factor fA, not the active fC. -/
theorem computeStepSize_skips_active_witness :
    (computeStepSize wsOne xZero pOne 2).2 = ((1 : ℕ) : ℤ) ∧
    wsOne.get? 1 = some fA ∧ fA.active = false := by
  have h1 : (computeStepSize wsOne xZero pOne 2).2 = ((1 : ℕ) : ℤ) := by
    norm_num [computeStepSize, stepLoop, wsOne, fA, fC, dotProductRow, xZero,
      pOne]
  exact ⟨h1, rfl, computeStepSize_skips_active wsOne xZero pOne 2 1 fA h1 rfl⟩

/-- Claim C6: whenever computeStepSize returns a nonnegative factor index
together with step alpha, that factor's constraint is tight at the stepped
point: a^T (xk + alpha * p) = b in exact rational arithmetic. -/
theorem computeStepSize_newly_tight (workingSet : List LinearInequality)
    (xk p : Nat → ℚ) (startAlpha : ℚ) (j : ℕ) (f : LinearInequality)
    (hj : (computeStepSize workingSet xk p startAlpha).2 = (j : ℤ))
    (hf : workingSet.get? j = some f) :
    dotProductRow f
      (fun k => xk k + (computeStepSize workingSet xk p startAlpha).1 * p k) =
      f.b := by
  have hspec : StepSpec xk p workingSet 0 startAlpha (-1)
      (computeStepSize workingSet xk p startAlpha) :=
    stepLoop_spec xk p workingSet 0 startAlpha (-1)
  rcases hspec with ⟨h2, h1, hall⟩ | ⟨j', f', hget, h2, hcand, hlt, hall, hfirst⟩
  · rw [hj] at h2
    exact absurd h2 (by omega)
  · have hj' : j' = j := by
      rw [hj] at h2
      omega
    subst hj'
    rw [hget] at hf
    rw [← Option.some_injective _ hf]
    obtain ⟨hf'act, hf'p, hf'val⟩ := (candAlpha_some_iff xk p f' _).mp hcand
    rw [dotProductRow_add_smul, ← hf'val,
      div_mul_cancel₀ _ (ne_of_gt hf'p)]
    ring

/-- Claim C6, witness: on wsOne the newly binding factor fA is tight at the
stepped point. -/
theorem computeStepSize_newly_tight_witness :
    (computeStepSize wsOne xZero pOne 2).2 = ((1 : ℕ) : ℤ) ∧
    wsOne.get? 1 = some fA ∧
    dotProductRow fA
      (fun k => xZero k + (computeStepSize wsOne xZero pOne 2).1 * pOne k) =
      fA.b := by
  have h1 : (computeStepSize wsOne xZero pOne 2).2 = ((1 : ℕ) : ℤ) := by
    norm_num [computeStepSize, stepLoop, wsOne, fA, fC, dotProductRow, xZero,
      pOne]
  exact ⟨h1, rfl, computeStepSize_newly_tight wsOne xZero pOne 2 1 fA h1 rfl⟩

/-- Claim C2: under success of the multiplier lookups for active factors,
identifyLeavingConstraint returns the working-set index of the active factor
whose multiplier is maximal among active factors with positive multiplier,
ties broken by first-seen ascending index order, and returns -1 exactly when
no active factor has a positive multiplier; inactive factors are never
candidates. -/
theorem identifyLeavingConstraint_max_positive
    (workingSet : List LinearInequality) (lambdas : List (Nat × List ℚ))
    (hsome : ∀ f ∈ workingSet, f.active = true →
      (readLambda lambdas f).isSome = true) :
    ∃ r, identifyLeavingConstraint workingSet lambdas = some r ∧
      ((r = -1 ∧ ∀ f ∈ workingSet, f.active = true → ∀ lam,
          readLambda lambdas f = some lam → lam ≤ 0) ∨
        (∃ j : ℕ, ∃ f lam, workingSet.get? j = some f ∧ r = (j : ℤ) ∧
          f.active = true ∧ readLambda lambdas f = some lam ∧ 0 < lam ∧
          (∀ g ∈ workingSet, g.active = true → ∀ mu,
            readLambda lambdas g = some mu → mu ≤ lam) ∧
          ∀ k, k < j → ∀ g, workingSet.get? k = some g → g.active = true →
            ∀ mu, readLambda lambdas g = some mu → mu < lam)) := by
  have hspec : IdentifySpec lambdas workingSet 0 (-1) 0
      (identifyLoop lambdas workingSet 0 (-1) 0) :=
    identifyLoop_spec lambdas workingSet 0 (-1) 0 hsome
  rcases hspec with ⟨h2, hall⟩ |
      ⟨j, f, lam, hget, h2, hact, hread, hpos, hall, hfirst⟩
  · exact ⟨-1, h2, Or.inl ⟨rfl, hall⟩⟩
  · exact ⟨((0 + j : Nat) : ℤ), h2, Or.inr ⟨j, f, lam, hget, by omega, hact,
      hread, hpos, hall, hfirst⟩⟩

/-- Claim C2, witness: on the one-active-factor working set wsAct with
multiplier 3 at the dual key of fC, the lookups succeed and the theorem
applies. -/
theorem identifyLeavingConstraint_max_positive_witness :
    (∀ f ∈ wsAct, f.active = true → (readLambda lamEx f).isSome = true) ∧
    (∃ r, identifyLeavingConstraint wsAct lamEx = some r ∧
      ((r = -1 ∧ ∀ f ∈ wsAct, f.active = true → ∀ lam,
          readLambda lamEx f = some lam → lam ≤ 0) ∨
        (∃ j : ℕ, ∃ f lam, wsAct.get? j = some f ∧ r = (j : ℤ) ∧
          f.active = true ∧ readLambda lamEx f = some lam ∧ 0 < lam ∧
          (∀ g ∈ wsAct, g.active = true → ∀ mu,
            readLambda lamEx g = some mu → mu ≤ lam) ∧
          ∀ k, k < j → ∀ g, wsAct.get? k = some g → g.active = true →
            ∀ mu, readLambda lamEx g = some mu → mu < lam))) := by
  have hsome : ∀ f ∈ wsAct, f.active = true →
      (readLambda lamEx f).isSome = true := by
    intro f hf _
    simp only [wsAct, List.mem_singleton] at hf
    subst hf
    rfl
  exact ⟨hsome, identifyLeavingConstraint_max_positive wsAct lamEx hsome⟩

/-- Claim C7: computeStepSize and identifyLeavingConstraint are pure
deterministic queries: two calls on identical inputs return identical
outputs. In this embedding both are total functions of their arguments
alone, so mutation freedom of the working set and solver state is
structural. -/
theorem stepSize_and_identify_deterministic (ws1 ws2 : List LinearInequality)
    (xk1 xk2 p1 p2 : Nat → ℚ) (a1 a2 : ℚ)
    (lambdas1 lambdas2 : List (Nat × List ℚ))
    (hws : ws1 = ws2) (hxk : xk1 = xk2) (hp : p1 = p2) (ha : a1 = a2)
    (hlam : lambdas1 = lambdas2) :
    computeStepSize ws1 xk1 p1 a1 = computeStepSize ws2 xk2 p2 a2 ∧
      identifyLeavingConstraint ws1 lambdas1 =
        identifyLeavingConstraint ws2 lambdas2 := by
  subst hws
  subst hxk
  subst hp
  subst ha
  subst hlam
  exact ⟨rfl, rfl⟩

/-- Claim C7, witness: the double call on the concrete inputs wsOne, xZero,
pOne, 2 and lamEx. -/
theorem stepSize_and_identify_deterministic_witness :
    wsOne = wsOne ∧ xZero = xZero ∧ pOne = pOne ∧ (2 : ℚ) = 2 ∧
    lamEx = lamEx ∧
    (computeStepSize wsOne xZero pOne 2 = computeStepSize wsOne xZero pOne 2 ∧
      identifyLeavingConstraint wsOne lamEx =
        identifyLeavingConstraint wsOne lamEx) :=
  ⟨rfl, rfl, rfl, rfl, rfl,
    stepSize_and_identify_deterministic wsOne wsOne xZero xZero pOne pOne 2 2
      lamEx lamEx rfl rfl rfl rfl rfl⟩

/-- Claim C8: buildDualGraph calls createDualFactor once per constrained key
in order, and the resulting dual graph consists exactly of the non-empty
dual factors so produced; empty dual factors are dropped. -/
theorem buildDualGraph_filters_empty
    (createDualFactor : Nat → List LinearInequality → (Nat → ℚ) →
      List (Nat × List (List ℚ)))
    (constrainedKeys : List Nat) (workingSet : List LinearInequality)
    (delta : Nat → ℚ) :
    buildDualGraph createDualFactor constrainedKeys workingSet delta =
      (constrainedKeys.map fun key =>
        createDualFactor key workingSet delta).filter
        fun dualFactor => !dualFactor.isEmpty := by
  unfold buildDualGraph
  rw [buildDualGraph_foldl createDualFactor workingSet delta constrainedKeys []]
  simp

/-- Claim C9: for every key, graph and variable index consistent with the
graph, collectDualJacobians returns exactly the (dual key, transposed
Jacobian block at the key) pairs of the referenced factors marked active;
factors not marked active contribute no pair. -/
theorem collectDualJacobians_active_pairs (key : Nat)
    (graph : List DualSourceFactor) (variableIndex : List (Nat × List Nat))
    (factorIxs : List Nat)
    (hvi : assocFind variableIndex key = some factorIxs)
    (hwf : ∀ ix ∈ factorIxs, ∃ f, graph.get? ix = some f ∧
      (f.active = true → (getA f key).isSome = true)) :
    collectDualJacobians key graph variableIndex =
      some (factorIxs.filterMap fun ix =>
        (graph.get? ix).bind fun f =>
          if f.active = true then
            (getA f key).map fun A => (f.dualKey, A.transpose)
          else none) := by
  unfold collectDualJacobians
  rw [hvi]
  exact collectLoop_spec key graph factorIxs hwf

/-- Claim C9, witness: on the two-factor graph dgEx indexed by viEx at key 0,
only the active factor dfA contributes its transposed block. -/
theorem collectDualJacobians_active_pairs_witness :
    assocFind viEx 0 = some [0, 1] ∧
    (∀ ix ∈ [0, 1], ∃ f, dgEx.get? ix = some f ∧
      (f.active = true → (getA f 0).isSome = true)) ∧
    collectDualJacobians 0 dgEx viEx =
      some (([0, 1] : List Nat).filterMap fun ix =>
        (dgEx.get? ix).bind fun f =>
          if f.active = true then
            (getA f 0).map fun A => (f.dualKey, A.transpose)
          else none) := by
  have hwf : ∀ ix ∈ [0, 1], ∃ f, dgEx.get? ix = some f ∧
      (f.active = true → (getA f 0).isSome = true) := by
    intro ix hix
    simp only [List.mem_cons, List.mem_singleton] at hix
    rcases hix with rfl | rfl | h
    · exact ⟨dfA, rfl, fun _ => rfl⟩
    · exact ⟨dfB, rfl, fun h => absurd h (by decide)⟩
    · exact absurd h (by simp)
  exact ⟨rfl, hwf, collectDualJacobians_active_pairs 0 dgEx viEx [0, 1] rfl hwf⟩

/-- Claim C10: identifyLeavingConstraint reads the multipliers only at the
dual keys of active factors: when every active factor's dual key is present
with a non-empty vector the lookup never fails, and any multiplier map
agreeing on the active dual keys (say, one missing all inactive dual keys)
produces the identical result. -/
theorem identifyLeavingConstraint_reads_only_active
    (workingSet : List LinearInequality) (lambdas : List (Nat × List ℚ))
    (hpresent : ∀ f ∈ workingSet, f.active = true →
      ∃ v, assocFind lambdas f.dualKey = some v ∧ v ≠ []) :
    (identifyLeavingConstraint workingSet lambdas).isSome = true ∧
      ∀ lambdas2 : List (Nat × List ℚ),
        (∀ f ∈ workingSet, f.active = true →
          assocFind lambdas2 f.dualKey = assocFind lambdas f.dualKey) →
        identifyLeavingConstraint workingSet lambdas2 =
          identifyLeavingConstraint workingSet lambdas := by
  have hsome : ∀ f ∈ workingSet, f.active = true →
      (readLambda lambdas f).isSome = true := by
    intro f hf hact
    obtain ⟨v, hv, hne⟩ := hpresent f hf hact
    unfold readLambda
    rw [hv]
    cases v with
    | nil => exact absurd rfl hne
    | cons a rest => rfl
  constructor
  · rcases identifyLoop_spec lambdas workingSet 0 (-1) 0 hsome with ⟨h2, _⟩ |
        ⟨j, f, lam, _, h2, _⟩
    · show (identifyLoop lambdas workingSet 0 (-1) 0).isSome = true
      rw [h2]
      rfl
    · show (identifyLoop lambdas workingSet 0 (-1) 0).isSome = true
      rw [h2]
      rfl
  · intro lambdas2 hagree
    exact identifyLoop_congr lambdas lambdas2 workingSet 0 (-1) 0 hagree

/-- Claim C10, witness: on wsAct the active factor's dual key 12 is present
in lamEx with the non-empty vector, so the lookup succeeds. -/
theorem identifyLeavingConstraint_reads_only_active_witness :
    (∀ f ∈ wsAct, f.active = true →
      ∃ v, assocFind lamEx f.dualKey = some v ∧ v ≠ []) ∧
    ((identifyLeavingConstraint wsAct lamEx).isSome = true ∧
      ∀ lambdas2 : List (Nat × List ℚ),
        (∀ f ∈ wsAct, f.active = true →
          assocFind lambdas2 f.dualKey = assocFind lamEx f.dualKey) →
        identifyLeavingConstraint wsAct lambdas2 =
          identifyLeavingConstraint wsAct lamEx) := by
  have hpresent : ∀ f ∈ wsAct, f.active = true →
      ∃ v, assocFind lamEx f.dualKey = some v ∧ v ≠ [] := by
    intro f hf _
    simp only [wsAct, List.mem_singleton] at hf
    subst hf
    exact ⟨[3], rfl, by simp⟩
  exact ⟨hpresent,
    identifyLeavingConstraint_reads_only_active wsAct lamEx hpresent⟩
